import Mathlib

/-!
Verification of the YeetFit payment backend (`src/server.js`): a shallow
embedding of the two core handlers, `POST /api/create-order` and
`POST /api/verify-payment`, together with executable models of the pieces of
the JavaScript runtime they rely on (truthiness, the two regular expressions,
and HMAC-SHA256 from node's `crypto` module, implemented here over `Nat`
bytes).  The theorems at the end of the file settle the specification claims
about validation order, processor-call gating, receipt construction and the
signature-verification protocol.
-/

/-! ## JavaScript value model

The handlers receive JSON bodies; fields may be absent (`undefined`), `null`,
booleans, numbers or strings.  JavaScript numbers are modelled as rationals,
which is faithful for every behaviour the handlers exercise
(`Number.isInteger`, numeric comparison, equality); no claim depends on
float-specific behaviour such as NaN or rounding. -/

inductive JVal where
  | undef : JVal
  | jnull : JVal
  | jbool : Bool → JVal
  | jnum : ℚ → JVal
  | jstr : String → JVal
deriving DecidableEq

/-- Truthiness of a JavaScript value, as used by `!x` in the handlers:
`undefined`, `null`, `false`, `0` and `""` are falsy. -/
def jsTruthy : JVal → Bool
  | .undef => false
  | .jnull => false
  | .jbool b => b
  | .jnum q => !(q == 0)
  | .jstr s => !(s == "")

/-- String coercion `String(x)`, used when a non-string value reaches string
concatenation or `RegExp.test`.  The integer-number case matches JavaScript
exactly; non-integer numbers are rendered via `Rat`'s printer, which differs
from JavaScript's decimal rendering but is never distinguished by the
handlers (the only uses are regex tests that fail on any non-digit either
way). -/
def jsToString : JVal → String
  | .undef => "undefined"
  | .jnull => "null"
  | .jbool true => "true"
  | .jbool false => "false"
  | .jnum q => if q.den = 1 then toString q.num else toString q
  | .jstr s => s

/-- `Number.isInteger(x)`: true only for numbers with no fractional part. -/
def jsIsInteger : JVal → Bool
  | .jnum q => q.den == 1
  | _ => false

/-- Numeric comparison `x < k`.  In the handler it is only reached after
`Number.isInteger(x)` has succeeded, so the non-number arm is unreachable. -/
def jsNumLt (v : JVal) (k : ℚ) : Bool :=
  match v with
  | .jnum q => decide (q < k)
  | _ => false

/-- The process environment: the two Razorpay credentials read from
`process.env`.  `none` models an unset variable. -/
structure Env where
  keyId : Option String
  keySecret : Option String

/-- Truthiness of an environment variable (`!process.env.X`): absent or empty
means falsy. -/
def envPresent : Option String → Bool
  | none => false
  | some s => !(s == "")

/-! ## Regular expressions

The two validation regexes of the source, `/^\d{10}$/` and
`/^[\w-\.]+@([\w-]+\.)+[\w-]{2,4}$/`, are embedded as regular-expression
syntax trees over character classes and decided by Brzozowski derivatives;
`rmatch_iff` below proves the matcher agrees with the standard language
semantics, so the email characterisation claim can be settled against the
regex itself rather than against a hand-translated matcher. -/

inductive RE where
  | eps : RE
  | cls : (Char → Bool) → RE
  | cat : RE → RE → RE
  | alt : RE → RE → RE
  | star : RE → RE

/-- Does the regex accept the empty word? -/
def nullable : RE → Bool
  | .eps => true
  | .cls _ => false
  | .cat a b => nullable a && nullable b
  | .alt a b => nullable a || nullable b
  | .star _ => true

/-- Brzozowski derivative with respect to one character. -/
def reDeriv : RE → Char → RE
  | .eps, _ => .cls fun _ => false
  | .cls p, c => if p c then .eps else .cls fun _ => false
  | .cat a b, c =>
      if nullable a then .alt (.cat (reDeriv a c) b) (reDeriv b c)
      else .cat (reDeriv a c) b
  | .alt a b, c => .alt (reDeriv a c) (reDeriv b c)
  | .star r, c => .cat (reDeriv r c) (.star r)

/-- The derivative-based matcher (what `RegExp.prototype.test` computes for an
anchored pattern). -/
def rmatch (r : RE) (s : List Char) : Bool :=
  nullable (s.foldl reDeriv r)

/-- Language semantics of a regex. -/
inductive RLang : RE → List Char → Prop where
  | eps : RLang .eps []
  | cls {p : Char → Bool} {c : Char} : p c = true → RLang (.cls p) [c]
  | cat {a b : RE} {u v : List Char} :
      RLang a u → RLang b v → RLang (.cat a b) (u ++ v)
  | altL {a b : RE} {u : List Char} : RLang a u → RLang (.alt a b) u
  | altR {a b : RE} {u : List Char} : RLang b u → RLang (.alt a b) u
  | starNil {r : RE} : RLang (.star r) []
  | starCons {r : RE} {u v : List Char} :
      RLang r u → RLang (.star r) v → RLang (.star r) (u ++ v)

/-- One or more repetitions, `r+` = `r · r*`. -/
def rePlus (r : RE) : RE := .cat r (.star r)

/-- Exactly `n` repetitions. -/
def reTimes : Nat → RE → RE
  | 0, _ => .eps
  | n + 1, r => .cat r (reTimes n r)

/-- ASCII `\w`: letters, digits, underscore (the source regexes are compiled
without the unicode flag, so `\w` and `\d` are ASCII-only). -/
def wordChar (c : Char) : Bool :=
  c.isAlpha || c.isDigit || c == '_'

/-- Characters allowed in the local part of the email regex: `[\w-\.]`. -/
def localChar (c : Char) : Bool :=
  wordChar c || c == '-' || c == '.'

/-- Characters allowed in a domain label: `[\w-]`. -/
def labelChar (c : Char) : Bool :=
  wordChar c || c == '-'

/-- Between two and four repetitions of a class: `[\w-]{2,4}`. -/
def reTwoToFour (p : Char → Bool) : RE :=
  .cat (.cls p) (.cat (.cls p)
    (.alt .eps (.cat (.cls p) (.alt .eps (.cls p)))))

/-- The email regex of the source, `/^[\w-\.]+@([\w-]+\.)+[\w-]{2,4}$/`, as a
syntax tree. -/
def emailRE : RE :=
  .cat (rePlus (.cls localChar))
    (.cat (.cls fun c => c == '@')
      (.cat (rePlus (.cat (rePlus (.cls labelChar)) (.cls fun c => c == '.')))
        (reTwoToFour labelChar)))

/-- The contact regex of the source, `/^\d{10}$/`, as a syntax tree. -/
def contactRE : RE := reTimes 10 (.cls Char.isDigit)

/-- The source's email validation test. -/
def emailTest (s : String) : Bool := rmatch emailRE s.data

/-- The source's contact validation test. -/
def contactTest (s : String) : Bool := rmatch contactRE s.data

/-! ## SHA-256 and HMAC-SHA256

An executable model of node's
`crypto.createHmac('sha256', secret).update(body).digest('hex')`, written
over `Nat` with explicit reduction modulo `2 ^ 32` per FIPS 180-4 and
RFC 2104.  Messages and keys are byte lists (UTF-8 of the input strings);
the digest is rendered as 64 lowercase hex characters, exactly as
`digest('hex')` renders it. -/

/-- Reduce modulo the 32-bit word size. -/
def u32 (n : Nat) : Nat := n % 4294967296

/-- Right rotation of a 32-bit word by `k` bits. -/
def rotr (k n : Nat) : Nat := u32 ((n >>> k) ||| (n <<< (32 - k)))

/-- SHA-256 round constants (FIPS 180-4 section 4.2.2, in decimal). -/
def shaK : List Nat :=
  [1116352408, 1899447441, 3049323471, 3921009573,
   961987163, 1508970993, 2453635748, 2870763221,
   3624381080, 310598401, 607225278, 1426881987,
   1925078388, 2162078206, 2614888103, 3248222580,
   3835390401, 4022224774, 264347078, 604807628,
   770255983, 1249150122, 1555081692, 1996064986,
   2554220882, 2821834349, 2952996808, 3210313671,
   3336571891, 3584528711, 113926993, 338241895,
   666307205, 773529912, 1294757372, 1396182291,
   1695183700, 1986661051, 2177026350, 2456956037,
   2730485921, 2820302411, 3259730800, 3345764771,
   3516065817, 3600352804, 4094571909, 275423344,
   430227734, 506948616, 659060556, 883997877,
   958139571, 1322822218, 1537002063, 1747873779,
   1955562222, 2024104815, 2227730452, 2361852424,
   2428436474, 2756734187, 3204031479, 3329325298]

/-- The eight 32-bit words of SHA-256 working state. -/
structure Sha256State where
  s0 : Nat
  s1 : Nat
  s2 : Nat
  s3 : Nat
  s4 : Nat
  s5 : Nat
  s6 : Nat
  s7 : Nat

/-- SHA-256 initial hash value (FIPS 180-4 section 5.3.3, in decimal). -/
def shaInit : Sha256State :=
  ⟨1779033703, 3144134277, 1013904242, 2773480762,
   1359893119, 2600822924, 528734635, 1541459225⟩

/-- FIPS 180-4 `σ₀`. -/
def smallSigma0 (x : Nat) : Nat := rotr 7 x ^^^ rotr 18 x ^^^ (x >>> 3)

/-- FIPS 180-4 `σ₁`. -/
def smallSigma1 (x : Nat) : Nat := rotr 17 x ^^^ rotr 19 x ^^^ (x >>> 10)

/-- FIPS 180-4 `Σ₀`. -/
def bigSigma0 (x : Nat) : Nat := rotr 2 x ^^^ rotr 13 x ^^^ rotr 22 x

/-- FIPS 180-4 `Σ₁`. -/
def bigSigma1 (x : Nat) : Nat := rotr 6 x ^^^ rotr 11 x ^^^ rotr 25 x

/-- FIPS 180-4 `Ch`. -/
def chFn (x y z : Nat) : Nat := (x &&& y) ^^^ ((x ^^^ 4294967295) &&& z)

/-- FIPS 180-4 `Maj`. -/
def majFn (x y z : Nat) : Nat := (x &&& y) ^^^ (x &&& z) ^^^ (y &&& z)

/-- Merkle–Damgård padding: append `0x80`, zeros to 56 mod 64, then the
bit length as eight big-endian bytes. -/
def sha256Pad (msg : List Nat) : List Nat :=
  let len := msg.length
  let zeros := (119 - len % 64) % 64
  let bits := 8 * len
  msg ++ 0x80 :: List.replicate zeros 0 ++
    [(bits >>> 56) % 256, (bits >>> 48) % 256, (bits >>> 40) % 256,
     (bits >>> 32) % 256, (bits >>> 24) % 256, (bits >>> 16) % 256,
     (bits >>> 8) % 256, bits % 256]

/-- Group a byte list into big-endian 32-bit words. -/
def bytesToWords : List Nat → List Nat
  | b0 :: b1 :: b2 :: b3 :: rest =>
      ((b0 <<< 24) ||| (b1 <<< 16) ||| (b2 <<< 8) ||| b3) :: bytesToWords rest
  | _ => []

/-- Append the next word of the message schedule. -/
def schedStep (w : List Nat) : List Nat :=
  let n := w.length
  let g := fun i => w.getD (n - i) 0
  w ++ [u32 (smallSigma1 (g 2) + g 7 + smallSigma0 (g 15) + g 16)]

/-- Iterate a function `n` times. -/
def iterate (f : α → α) : Nat → α → α
  | 0, x => x
  | n + 1, x => iterate f n (f x)

/-- Extend the sixteen chunk words to the 64-word message schedule. -/
def schedule (w : List Nat) : List Nat := iterate schedStep 48 w

/-- One round of the SHA-256 compression function; `kw` is the pair of round
constant and schedule word. -/
def shaRound (st : Sha256State) (kw : Nat × Nat) : Sha256State :=
  let t1 := u32 (st.s7 + bigSigma1 st.s4 + chFn st.s4 st.s5 st.s6 + kw.1 + kw.2)
  let t2 := u32 (bigSigma0 st.s0 + majFn st.s0 st.s1 st.s2)
  ⟨u32 (t1 + t2), st.s0, st.s1, st.s2, u32 (st.s3 + t1), st.s4, st.s5, st.s6⟩

/-- Compress one 64-byte chunk into the running hash state. -/
def sha256Chunk (st : Sha256State) (chunk : List Nat) : Sha256State :=
  let ws := schedule (bytesToWords chunk)
  let f := (shaK.zip ws).foldl shaRound st
  ⟨u32 (st.s0 + f.s0), u32 (st.s1 + f.s1), u32 (st.s2 + f.s2),
   u32 (st.s3 + f.s3), u32 (st.s4 + f.s4), u32 (st.s5 + f.s5),
   u32 (st.s6 + f.s6), u32 (st.s7 + f.s7)⟩

/-- Split a list into 64-element chunks.  The first argument is fuel, set to
the list length by `chunks64`; every step consumes at least one element, so
the fuel never runs out. -/
def chunksAux : Nat → List Nat → List (List Nat)
  | _, [] => []
  | 0, _ :: _ => []
  | n + 1, x :: rest => (x :: rest).take 64 :: chunksAux n ((x :: rest).drop 64)

/-- Split a list into 64-element chunks. -/
def chunks64 (l : List Nat) : List (List Nat) := chunksAux l.length l

/-- Big-endian bytes of a 32-bit word. -/
def wordBytes (w : Nat) : List Nat :=
  [(w >>> 24) % 256, (w >>> 16) % 256, (w >>> 8) % 256, w % 256]

/-- SHA-256 of a byte list, as 32 digest bytes. -/
def sha256Bytes (msg : List Nat) : List Nat :=
  let st := (chunks64 (sha256Pad msg)).foldl sha256Chunk shaInit
  wordBytes st.s0 ++ wordBytes st.s1 ++ wordBytes st.s2 ++ wordBytes st.s3 ++
    wordBytes st.s4 ++ wordBytes st.s5 ++ wordBytes st.s6 ++ wordBytes st.s7

/-- RFC 2104 HMAC with SHA-256 (block size 64 bytes), over byte lists. -/
def hmacSha256 (key msg : List Nat) : List Nat :=
  let k0 := if 64 < key.length then sha256Bytes key else key
  let kp := k0 ++ List.replicate (64 - k0.length) 0
  let ipad := kp.map fun b => b ^^^ 0x36
  let opad := kp.map fun b => b ^^^ 0x5c
  sha256Bytes (opad ++ sha256Bytes (ipad ++ msg))

/-- UTF-8 bytes of one character. -/
def utf8Char (c : Char) : List Nat :=
  let n := c.toNat
  if n < 0x80 then [n]
  else if n < 0x800 then
    [0xc0 ||| (n >>> 6), 0x80 ||| (n &&& 0x3f)]
  else if n < 0x10000 then
    [0xe0 ||| (n >>> 12), 0x80 ||| ((n >>> 6) &&& 0x3f), 0x80 ||| (n &&& 0x3f)]
  else
    [0xf0 ||| (n >>> 18), 0x80 ||| ((n >>> 12) &&& 0x3f),
     0x80 ||| ((n >>> 6) &&& 0x3f), 0x80 ||| (n &&& 0x3f)]

/-- UTF-8 bytes of a string (what node hashes for string inputs). -/
def strBytes (s : String) : List Nat := (s.data.map utf8Char).flatten

/-- Lowercase hex digit. -/
def hexDigitChar (n : Nat) : Char := "0123456789abcdef".data.getD n '0'

/-- Uppercase hex digit. -/
def hexDigitCharUpper (n : Nat) : Char := "0123456789ABCDEF".data.getD n '0'

/-- Two lowercase hex characters of one byte. -/
def byteHex (b : Nat) : List Char := [hexDigitChar (b / 16), hexDigitChar (b % 16)]

/-- Two uppercase hex characters of one byte. -/
def byteHexUpper (b : Nat) : List Char :=
  [hexDigitCharUpper (b / 16), hexDigitCharUpper (b % 16)]

/-- Lowercase hexadecimal rendering of a byte list (node's `digest('hex')`). -/
def bytesHex (bs : List Nat) : String := ⟨(bs.map byteHex).flatten⟩

/-- Uppercase hexadecimal rendering of a byte list. -/
def bytesHexUpper (bs : List Nat) : String := ⟨(bs.map byteHexUpper).flatten⟩

/-- The signature the processor computes:
`crypto.createHmac('sha256', key).update(msg).digest('hex')`. -/
def hmacSha256Hex (key msg : String) : String :=
  bytesHex (hmacSha256 (strBytes key) (strBytes msg))

/-! ## The `POST /api/create-order` handler

Lines 55–122 of `src/server.js`.  The handler is pure up to the single
outbound `razorpay.orders.create(options)` call; the embedding returns the
outcome reached, with the processor call represented by the terminal
`processorCall` outcome carrying the exact options object the source builds.
`Date.now()` is passed in as the `now` parameter. -/

/-- Destructuring defaults `email = ''`, `contact = ''`: the default applies
exactly when the field is `undefined`. -/
def defStr (v : JVal) : JVal :=
  match v with
  | .undef => .jstr ""
  | v => v

/-- JavaScript `s.slice(0, n)` for a string and non-negative `n`. -/
def jsSlice (n : Nat) (s : String) : String := ⟨s.data.take n⟩

/-- The `notes` object passed to the processor. -/
structure OrderNotes where
  userId : JVal
  name : JVal
  email : JVal
  contact : JVal
deriving DecidableEq

/-- The `options` object passed to `razorpay.orders.create`. -/
structure OrderOptions where
  amount : JVal
  currency : JVal
  receipt : String
  paymentCapture : ℚ
  notes : OrderNotes
deriving DecidableEq

/-- Outcome of the create-order handler, one constructor per `return`/fall
through point of the source.  `processorCall` is the single invocation of the
processor's order-creation capability; `typeErrorCaught` is the `catch` path
taken when a truthy non-string `userId` reaches `userId.slice`. -/
inductive OrderOutcome where
  | missingFields : OrderOutcome
  | badAmount : OrderOutcome
  | badCurrency : OrderOutcome
  | badContact : OrderOutcome
  | badEmail : OrderOutcome
  | missingCredentials : OrderOutcome
  | typeErrorCaught : OrderOutcome
  | processorCall : OrderOptions → OrderOutcome
deriving DecidableEq

/-- Request body of `POST /api/create-order`; absent fields are `undef`. -/
structure OrderReq where
  amount : JVal
  currency : JVal
  userId : JVal
  name : JVal
  email : JVal
  contact : JVal

/-- Guard of the first check, `!amount || !currency || !userId || !name`. -/
def presenceFails (req : OrderReq) : Bool :=
  !jsTruthy req.amount || !jsTruthy req.currency ||
    !jsTruthy req.userId || !jsTruthy req.name

/-- Guard of the second check, `!Number.isInteger(amount) || amount < 100`. -/
def amountFails (req : OrderReq) : Bool :=
  !jsIsInteger req.amount || jsNumLt req.amount 100

/-- Guard of the third check, `!['INR'].includes(currency)`: the one-element
`includes` is equality with the string `'INR'`. -/
def currencyFails (req : OrderReq) : Bool :=
  !(req.currency == JVal.jstr "INR")

/-- Guard of the fourth check, `contact && !/^\d{10}$/.test(contact)`, on
the destructured `contact` (default `''`). -/
def contactFails (req : OrderReq) : Bool :=
  jsTruthy (defStr req.contact) && !contactTest (jsToString (defStr req.contact))

/-- Guard of the fifth check,
`email && !/^[\w-\.]+@([\w-]+\.)+[\w-]{2,4}$/.test(email)`, on the
destructured `email` (default `''`). -/
def emailFails (req : OrderReq) : Bool :=
  jsTruthy (defStr req.email) && !emailTest (jsToString (defStr req.email))

/-- Guard of the credential check,
`!process.env.RAZORPAY_KEY_ID || !process.env.RAZORPAY_KEY_SECRET`. -/
def credsFail (env : Env) : Bool :=
  !envPresent env.keyId || !envPresent env.keySecret

/-- The create-order handler (`src/server.js` lines 55–122). -/
def createOrder (env : Env) (now : Nat) (req : OrderReq) : OrderOutcome :=
  if presenceFails req then
    .missingFields
  else if amountFails req then
    .badAmount
  else if currencyFails req then
    .badCurrency
  else if contactFails req then
    .badContact
  else if emailFails req then
    .badEmail
  else if credsFail env then
    .missingCredentials
  else
    match req.userId with
    | .jstr u =>
        .processorCall
          { amount := req.amount
            currency := req.currency
            receipt := jsSlice 40 ("rcpt_" ++ jsSlice 20 u ++ "_" ++ toString now)
            paymentCapture := 1
            notes :=
              { userId := req.userId, name := req.name
                email := defStr req.email, contact := defStr req.contact } }
    | _ => .typeErrorCaught

/-- HTTP status of each create-order outcome (a successful processor call is
answered with 200; processor failures are outside this model). -/
def orderStatus : OrderOutcome → Nat
  | .missingFields => 400
  | .badAmount => 400
  | .badCurrency => 400
  | .badContact => 400
  | .badEmail => 400
  | .missingCredentials => 500
  | .typeErrorCaught => 500
  | .processorCall _ => 200

/-- Number of processor order-creation calls an outcome performs. -/
def processorCalls : OrderOutcome → Nat
  | .processorCall _ => 1
  | _ => 0

/-- Conjunction of the five validation rules (presence, amount, currency,
contact, email): no guard of the five client-side checks fires. -/
def rulesHold (req : OrderReq) : Bool :=
  !(presenceFails req || amountFails req || currencyFails req ||
    contactFails req || emailFails req)

/-! ## The `POST /api/verify-payment` handler

Lines 125–156 of `src/server.js`.  The pair returned counts how many HMAC
digests the execution computes, so that "no HMAC is computed on the
missing-field path" is a statement about the model rather than a comment. -/

/-- Outcome of the verify-payment handler. -/
inductive VerifyOutcome where
  | missingFields : VerifyOutcome
  | configError : VerifyOutcome
  | success : VerifyOutcome
  | invalidSignature : VerifyOutcome
deriving DecidableEq

/-- The verify-payment handler with an HMAC-computation counter. -/
def verifyPaymentRun (env : Env) (orderId paymentId signature : JVal) :
    VerifyOutcome × Nat :=
  if !jsTruthy orderId || !jsTruthy paymentId || !jsTruthy signature then
    (.missingFields, 0)
  else if !envPresent env.keySecret then
    (.configError, 0)
  else
    let secret := env.keySecret.getD ""
    let body := jsToString orderId ++ "|" ++ jsToString paymentId
    let expected := hmacSha256Hex secret body
    if JVal.jstr expected == signature then (.success, 1)
    else (.invalidSignature, 1)

/-- The verify-payment handler's outcome. -/
def verifyPayment (env : Env) (orderId paymentId signature : JVal) :
    VerifyOutcome :=
  (verifyPaymentRun env orderId paymentId signature).1

/-- HTTP status of each verify-payment outcome. -/
def verifyStatus : VerifyOutcome → Nat
  | .missingFields => 400
  | .configError => 500
  | .success => 200
  | .invalidSignature => 400

/-! ## Correctness of the derivative matcher -/

/-- A word in the empty class is impossible. -/
theorem RLang.not_cls_false {s : List Char} :
    ¬ RLang (.cls fun _ => false) s := by
  intro h
  cases h with
  | cls hp => exact Bool.false_ne_true hp

/-- Inversion for `eps`. -/
theorem RLang.eps_iff {s : List Char} : RLang .eps s ↔ s = [] := by
  constructor
  · intro h; cases h; rfl
  · rintro rfl; exact .eps

/-- Inversion for a character class. -/
theorem RLang.cls_iff {p : Char → Bool} {s : List Char} :
    RLang (.cls p) s ↔ ∃ c, s = [c] ∧ p c = true := by
  constructor
  · intro h; cases h with | cls hp => exact ⟨_, rfl, hp⟩
  · rintro ⟨c, rfl, hp⟩; exact .cls hp

/-- Inversion for concatenation. -/
theorem RLang.cat_iff {a b : RE} {s : List Char} :
    RLang (.cat a b) s ↔ ∃ u v, s = u ++ v ∧ RLang a u ∧ RLang b v := by
  constructor
  · intro h; cases h with | cat hu hv => exact ⟨_, _, rfl, hu, hv⟩
  · rintro ⟨u, v, rfl, hu, hv⟩; exact .cat hu hv

/-- Inversion for alternation. -/
theorem RLang.alt_iff {a b : RE} {s : List Char} :
    RLang (.alt a b) s ↔ RLang a s ∨ RLang b s := by
  constructor
  · intro h; cases h with
    | altL h => exact Or.inl h
    | altR h => exact Or.inr h
  · rintro (h | h)
    · exact .altL h
    · exact .altR h

/-- Nullability decides membership of the empty word. -/
theorem nullable_iff {r : RE} : nullable r = true ↔ RLang r [] := by
  induction r with
  | eps => simp [nullable]; exact .eps
  | cls p =>
      simp only [nullable, Bool.false_eq_true, false_iff]
      intro h; cases h
  | cat a b iha ihb =>
      simp only [nullable, Bool.and_eq_true, iha, ihb]
      constructor
      · rintro ⟨ha, hb⟩; exact RLang.cat (u := []) ha hb
      · intro h
        rcases RLang.cat_iff.mp h with ⟨u, v, huv, hu, hv⟩
        rcases List.append_eq_nil.mp huv.symm with ⟨rfl, rfl⟩
        exact ⟨hu, hv⟩
  | alt a b iha ihb =>
      simp only [nullable, Bool.or_eq_true, iha, ihb, RLang.alt_iff]
  | star r ih =>
      simp only [nullable, true_iff]
      exact .starNil

/-- Generalised inversion for `star`: a star word is empty or splits off a
nonempty first chunk. -/
theorem RLang.star_first_chunk {t : RE} {w : List Char} (h : RLang t w) :
    ∀ {r : RE}, t = .star r →
      w = [] ∨ ∃ u v, w = u ++ v ∧ u ≠ [] ∧ RLang r u ∧ RLang (.star r) v := by
  induction h with
  | eps => intro r ht; cases ht
  | cls _ => intro r ht; cases ht
  | cat _ _ => intro r ht; cases ht
  | altL _ => intro r ht; cases ht
  | altR _ => intro r ht; cases ht
  | starNil => intro r ht; exact Or.inl rfl
  | starCons hu hv ihu ihv =>
      intro r ht
      injection ht with ht
      subst ht
      rename_i u v
      rcases List.eq_nil_or_concat u with rfl | _
      · simpa using ihv rfl
      · exact Or.inr ⟨u, v, rfl, by rintro rfl; simp_all, hu, hv⟩

/-- Derivative inversion for `star` at a nonempty word. -/
theorem RLang.star_cons_inv {r : RE} {c : Char} {s : List Char}
    (h : RLang (.star r) (c :: s)) :
    ∃ u v, s = u ++ v ∧ RLang r (c :: u) ∧ RLang (.star r) v := by
  rcases h.star_first_chunk rfl with hnil | ⟨u, v, huv, hne, hu, hv⟩
  · cases hnil
  · match u, hne, huv with
    | x :: u, _, huv =>
        rw [List.cons_append] at huv
        injection huv with h1 h2
        subst h1
        exact ⟨u, v, h2, hu, hv⟩

/-- Correctness of the Brzozowski derivative. -/
theorem reDeriv_iff {r : RE} {c : Char} {s : List Char} :
    RLang (reDeriv r c) s ↔ RLang r (c :: s) := by
  induction r generalizing s with
  | eps =>
      simp only [reDeriv]
      constructor
      · intro h; exact absurd h RLang.not_cls_false
      · intro h; cases h
  | cls p =>
      simp only [reDeriv]
      cases hp : p c with
      | true =>
          simp only [if_true, RLang.eps_iff, RLang.cls_iff]
          constructor
          · rintro rfl; exact ⟨c, rfl, hp⟩
          · rintro ⟨d, hd, _⟩
            injection hd with h1 h2
      | false =>
          simp only [Bool.false_eq_true, if_false]
          constructor
          · intro h; exact absurd h RLang.not_cls_false
          · intro h
            rcases RLang.cls_iff.mp h with ⟨d, hd, hpd⟩
            have hcd : c = d := by injection hd
            exact absurd hpd (by simp [← hcd, hp])
  | cat a b iha ihb =>
      simp only [reDeriv]
      by_cases hn : nullable a = true
      · simp only [hn, if_true]
        constructor
        · intro h
          rcases RLang.alt_iff.mp h with h | h
          · rcases RLang.cat_iff.mp h with ⟨u, v, rfl, hu, hv⟩
            have : c :: (u ++ v) = (c :: u) ++ v := by simp
            exact this ▸ RLang.cat (iha.mp hu) hv
          · have := RLang.cat (u := []) (nullable_iff.mp hn) (ihb.mp h)
            simpa using this
        · intro h
          rcases RLang.cat_iff.mp h with ⟨u, v, huv, hu, hv⟩
          match u, huv with
          | [], huv =>
              rw [List.nil_append] at huv
              exact RLang.altR (ihb.mpr (huv ▸ hv))
          | x :: u, huv =>
              rw [List.cons_append] at huv
              injection huv with h1 h2
              subst h1
              subst h2
              exact RLang.altL (RLang.cat (iha.mpr hu) hv)
      · rw [Bool.not_eq_true] at hn
        simp only [hn, Bool.false_eq_true, if_false]
        constructor
        · intro h
          rcases RLang.cat_iff.mp h with ⟨u, v, rfl, hu, hv⟩
          have : c :: (u ++ v) = (c :: u) ++ v := by simp
          exact this ▸ RLang.cat (iha.mp hu) hv
        · intro h
          rcases RLang.cat_iff.mp h with ⟨u, v, huv, hu, hv⟩
          match u, huv with
          | [], huv =>
              exact absurd (nullable_iff.mpr hu) (by simp [hn])
          | x :: u, huv =>
              rw [List.cons_append] at huv
              injection huv with h1 h2
              subst h1
              subst h2
              exact RLang.cat (iha.mpr hu) hv
  | alt a b iha ihb =>
      simp only [reDeriv, RLang.alt_iff, iha, ihb]
  | star r ih =>
      simp only [reDeriv]
      constructor
      · intro h
        rcases RLang.cat_iff.mp h with ⟨u, v, rfl, hu, hv⟩
        exact (List.cons_append c u v) ▸ RLang.starCons (ih.mp hu) hv
      · intro h
        rcases h.star_cons_inv with ⟨u, v, rfl, hu, hv⟩
        exact RLang.cat (ih.mpr hu) hv

/-- The derivative matcher decides the language: the matcher used for the
source's `regex.test(...)` calls agrees with the standard semantics. -/
theorem rmatch_iff {r : RE} {s : List Char} :
    rmatch r s = true ↔ RLang r s := by
  induction s generalizing r with
  | nil => exact nullable_iff
  | cons c s ih =>
      have : rmatch r (c :: s) = rmatch (reDeriv r c) s := rfl
      rw [this, ih, reDeriv_iff]

/-! ## Language shapes of the two source regexes -/

/-- A star word is a concatenation of chunks from the body language. -/
theorem RLang.star_chunks {t : RE} {w : List Char} (h : RLang t w) :
    ∀ {r : RE}, t = .star r →
      ∃ cs : List (List Char), w = cs.flatten ∧ ∀ u ∈ cs, RLang r u := by
  induction h with
  | eps => intro r ht; cases ht
  | cls _ => intro r ht; cases ht
  | cat _ _ => intro r ht; cases ht
  | altL _ => intro r ht; cases ht
  | altR _ => intro r ht; cases ht
  | starNil => intro r ht; exact ⟨[], rfl, by simp⟩
  | @starCons r0 u v hu hv ihu ihv =>
      intro r ht
      injection ht with ht
      subst ht
      rcases ihv rfl with ⟨cs, hflat, hcs⟩
      refine ⟨u :: cs, by simp [hflat], ?_⟩
      intro x hx
      rcases List.mem_cons.mp hx with rfl | hx
      · exact hu
      · exact hcs x hx

/-- Conversely, a concatenation of body-language chunks is a star word. -/
theorem RLang.star_of_chunks {r : RE} {cs : List (List Char)}
    (h : ∀ u ∈ cs, RLang r u) : RLang (.star r) cs.flatten := by
  induction cs with
  | nil => exact .starNil
  | cons u cs ih =>
      have : (u :: cs).flatten = u ++ cs.flatten := by simp
      rw [this]
      exact RLang.starCons (h u (by simp))
        (ih fun x hx => h x (List.mem_cons_of_mem u hx))

/-- Star of a class accepts exactly the words all of whose characters are in
the class. -/
theorem star_cls_iff {p : Char → Bool} {s : List Char} :
    RLang (.star (.cls p)) s ↔ ∀ c ∈ s, p c = true := by
  constructor
  · intro h
    rcases h.star_chunks rfl with ⟨cs, rfl, hcs⟩
    intro c hc
    rcases List.mem_flatten.mp hc with ⟨u, hu, hcu⟩
    rcases RLang.cls_iff.mp (hcs u hu) with ⟨d, rfl, hd⟩
    rcases List.mem_singleton.mp hcu with rfl
    exact hd
  · intro h
    induction s with
    | nil => exact .starNil
    | cons c s ih =>
        have : c :: s = [c] ++ s := rfl
        rw [this]
        exact RLang.starCons (.cls (h c (by simp)))
          (ih fun d hd => h d (List.mem_cons_of_mem c hd))

/-- Plus of a class accepts exactly the nonempty words all of whose
characters are in the class. -/
theorem plus_cls_iff {p : Char → Bool} {s : List Char} :
    RLang (rePlus (.cls p)) s ↔ s ≠ [] ∧ ∀ c ∈ s, p c = true := by
  constructor
  · intro h
    rcases RLang.cat_iff.mp h with ⟨u, v, rfl, hu, hv⟩
    rcases RLang.cls_iff.mp hu with ⟨c, rfl, hc⟩
    refine ⟨by simp, ?_⟩
    intro d hd
    rcases List.mem_append.mp hd with hd | hd
    · rcases List.mem_singleton.mp hd with rfl
      exact hc
    · exact star_cls_iff.mp hv d hd
  · rintro ⟨hne, h⟩
    match s, hne with
    | c :: s, _ =>
        have : c :: s = [c] ++ s := rfl
        rw [this]
        exact RLang.cat (.cls (h c (by simp)))
          (star_cls_iff.mpr fun d hd => h d (List.mem_cons_of_mem c hd))

/-- `reTimes n` of a class accepts exactly the words of length `n` all of
whose characters are in the class. -/
theorem reTimes_cls_iff {p : Char → Bool} {n : Nat} {s : List Char} :
    RLang (reTimes n (.cls p)) s ↔ s.length = n ∧ ∀ c ∈ s, p c = true := by
  induction n generalizing s with
  | zero =>
      simp only [reTimes, RLang.eps_iff]
      constructor
      · rintro rfl; simp
      · rintro ⟨h, _⟩; exact List.length_eq_zero.mp h
  | succ n ih =>
      simp only [reTimes]
      constructor
      · intro h
        rcases RLang.cat_iff.mp h with ⟨u, v, rfl, hu, hv⟩
        rcases RLang.cls_iff.mp hu with ⟨c, rfl, hc⟩
        rcases ih.mp hv with ⟨hlen, hall⟩
        refine ⟨by simp [hlen], ?_⟩
        intro d hd
        rcases List.mem_append.mp hd with hd | hd
        · rcases List.mem_singleton.mp hd with rfl
          exact hc
        · exact hall d hd
      · rintro ⟨hlen, hall⟩
        match s, hlen with
        | c :: s, hlen =>
            have : c :: s = [c] ++ s := rfl
            rw [this]
            exact RLang.cat (.cls (hall c (by simp)))
              (ih.mpr ⟨by simpa using hlen, fun d hd => hall d (List.mem_cons_of_mem c hd)⟩)

/-- The `{2,4}` repetition accepts exactly the words of length two to four
all of whose characters are in the class. -/
theorem twoToFour_iff {p : Char → Bool} {s : List Char} :
    RLang (reTwoToFour p) s ↔
      2 ≤ s.length ∧ s.length ≤ 4 ∧ ∀ c ∈ s, p c = true := by
  constructor
  · intro h
    rcases RLang.cat_iff.mp h with ⟨u1, v1, rfl, hu1, hv1⟩
    rcases RLang.cls_iff.mp hu1 with ⟨c1, rfl, hc1⟩
    rcases RLang.cat_iff.mp hv1 with ⟨u2, v2, rfl, hu2, hv2⟩
    rcases RLang.cls_iff.mp hu2 with ⟨c2, rfl, hc2⟩
    rcases RLang.alt_iff.mp hv2 with h3 | h3
    · rcases RLang.eps_iff.mp h3 with rfl
      refine ⟨by simp, by simp, ?_⟩
      intro d hd
      simp only [List.append_nil, List.mem_append, List.mem_singleton] at hd
      rcases hd with rfl | rfl
      · exact hc1
      · exact hc2
    · rcases RLang.cat_iff.mp h3 with ⟨u3, v3, rfl, hu3, hv3⟩
      rcases RLang.cls_iff.mp hu3 with ⟨c3, rfl, hc3⟩
      rcases RLang.alt_iff.mp hv3 with h4 | h4
      · rcases RLang.eps_iff.mp h4 with rfl
        refine ⟨by simp, by simp, ?_⟩
        intro d hd
        simp only [List.append_nil, List.mem_append, List.mem_singleton] at hd
        rcases hd with rfl | rfl | rfl
        · exact hc1
        · exact hc2
        · exact hc3
      · rcases RLang.cls_iff.mp h4 with ⟨c4, rfl, hc4⟩
        refine ⟨by simp, by simp, ?_⟩
        intro d hd
        simp only [List.mem_append, List.mem_singleton] at hd
        rcases hd with rfl | rfl | rfl | rfl
        · exact hc1
        · exact hc2
        · exact hc3
        · exact hc4
  · rintro ⟨h2, h4, hp⟩
    rcases s with _ | ⟨c1, _ | ⟨c2, _ | ⟨c3, _ | ⟨c4, _ | ⟨c5, s⟩⟩⟩⟩⟩
    · simp at h2
    · simp at h2
    · exact RLang.cat (u := [c1]) (.cls (hp c1 (by simp)))
        (RLang.cat (u := [c2]) (v := []) (.cls (hp c2 (by simp)))
          (RLang.altL .eps))
    · exact RLang.cat (u := [c1]) (.cls (hp c1 (by simp)))
        (RLang.cat (u := [c2]) (v := [c3]) (.cls (hp c2 (by simp)))
          (RLang.altR (RLang.cat (u := [c3]) (v := []) (.cls (hp c3 (by simp)))
            (RLang.altL .eps))))
    · exact RLang.cat (u := [c1]) (.cls (hp c1 (by simp)))
        (RLang.cat (u := [c2]) (v := [c3, c4]) (.cls (hp c2 (by simp)))
          (RLang.altR (RLang.cat (u := [c3]) (v := [c4]) (.cls (hp c3 (by simp)))
            (RLang.altR (.cls (hp c4 (by simp)))))))
    · simp at h4

/-- One domain group `[\w-]+\.` accepts exactly a nonempty label followed by
one dot. -/
theorem domainGroup_iff {p : Char → Bool} {s : List Char} :
    RLang (.cat (rePlus (.cls p)) (.cls fun c => c == '.')) s ↔
      ∃ lab, s = lab ++ ['.'] ∧ lab ≠ [] ∧ ∀ c ∈ lab, p c = true := by
  constructor
  · intro h
    rcases RLang.cat_iff.mp h with ⟨u, v, rfl, hu, hv⟩
    rcases RLang.cls_iff.mp hv with ⟨e, rfl, he⟩
    rcases plus_cls_iff.mp hu with ⟨hne, hall⟩
    have : e = '.' := by simpa using he
    subst this
    exact ⟨u, rfl, hne, hall⟩
  · rintro ⟨lab, rfl, hne, hall⟩
    exact RLang.cat (plus_cls_iff.mpr ⟨hne, hall⟩) (.cls (by simp))

/-- Chunks from the domain-group language collectively form a label list. -/
theorem chunks_to_labels {p : Char → Bool} :
    ∀ cs : List (List Char),
      (∀ u ∈ cs, RLang (.cat (rePlus (.cls p)) (.cls fun c => c == '.')) u) →
      ∃ labs : List (List Char),
        cs.flatten = (labs.map (· ++ ['.'])).flatten ∧
        ∀ lab ∈ labs, lab ≠ [] ∧ ∀ c ∈ lab, p c = true := by
  intro cs
  induction cs with
  | nil => exact fun _ => ⟨[], rfl, by simp⟩
  | cons w cs ih =>
      intro hcs
      rcases domainGroup_iff.mp (hcs w (by simp)) with ⟨lab, rfl, hne, hall⟩
      rcases ih (fun x hx => hcs x (List.mem_cons_of_mem _ hx)) with
        ⟨labs, heq, hlabs⟩
      refine ⟨lab :: labs, by simp [heq], ?_⟩
      intro x hx
      rcases List.mem_cons.mp hx with rfl | hx
      · exact ⟨hne, hall⟩
      · exact hlabs x hx

/-- The repeated domain group `([\w-]+\.)+` accepts exactly a nonempty list
of nonempty labels, each followed by one dot. -/
theorem domainPlus_iff {p : Char → Bool} {s : List Char} :
    RLang (rePlus (.cat (rePlus (.cls p)) (.cls fun c => c == '.'))) s ↔
      ∃ labs : List (List Char), labs ≠ [] ∧
        s = (labs.map (· ++ ['.'])).flatten ∧
        ∀ lab ∈ labs, lab ≠ [] ∧ ∀ c ∈ lab, p c = true := by
  constructor
  · intro h
    rcases RLang.cat_iff.mp h with ⟨u, v, rfl, hu, hv⟩
    rcases domainGroup_iff.mp hu with ⟨lab0, rfl, hne0, hall0⟩
    rcases hv.star_chunks rfl with ⟨cs, rfl, hcs⟩
    rcases chunks_to_labels cs hcs with ⟨labs, heq, hlabs⟩
    refine ⟨lab0 :: labs, by simp, by simp [heq], ?_⟩
    intro lab hlab
    rcases List.mem_cons.mp hlab with rfl | hlab
    · exact ⟨hne0, hall0⟩
    · exact hlabs lab hlab
  · rintro ⟨labs, hne, rfl, hlabs⟩
    match labs, hne with
    | lab0 :: labs, _ =>
        have hshape : ((lab0 :: labs).map (· ++ ['.'])).flatten =
            (lab0 ++ ['.']) ++ (labs.map (· ++ ['.'])).flatten := by simp
        rw [hshape]
        refine RLang.cat
          (domainGroup_iff.mpr ⟨lab0, rfl, (hlabs lab0 (by simp)).1,
            (hlabs lab0 (by simp)).2⟩) ?_
        apply RLang.star_of_chunks
        intro u hu
        rcases List.mem_map.mp hu with ⟨lab, hlab, rfl⟩
        exact domainGroup_iff.mpr ⟨lab, rfl,
          (hlabs lab (List.mem_cons_of_mem lab0 hlab)).1,
          (hlabs lab (List.mem_cons_of_mem lab0 hlab)).2⟩

/-! ## Characterisation of the email regex language -/

/-- The shape the specification describes: a nonempty local part of word
characters, dots and hyphens, an `@`, at least one nonempty dot-terminated
domain label of word characters and hyphens, and a final segment of two to
four word characters or hyphens after the last dot. -/
def specEmailShape (s : List Char) : Prop :=
  ∃ (loc : List Char) (labs : List (List Char)) (tld : List Char),
    s = loc ++ '@' :: ((labs.map (· ++ ['.'])).flatten ++ tld) ∧
    loc ≠ [] ∧ (∀ c ∈ loc, localChar c = true) ∧
    labs ≠ [] ∧ (∀ lab ∈ labs, lab ≠ [] ∧ ∀ c ∈ lab, labelChar c = true) ∧
    2 ≤ tld.length ∧ tld.length ≤ 4 ∧ (∀ c ∈ tld, labelChar c = true)

/-- The email regex language is exactly `specEmailShape`. -/
theorem emailRE_lang_iff {s : List Char} :
    RLang emailRE s ↔ specEmailShape s := by
  constructor
  · intro h
    rcases RLang.cat_iff.mp h with ⟨loc, v1, rfl, hloc, hv1⟩
    rcases RLang.cat_iff.mp hv1 with ⟨at1, v2, rfl, hat, hv2⟩
    rcases RLang.cls_iff.mp hat with ⟨e, rfl, he⟩
    have : e = '@' := by simpa using he
    subst this
    rcases RLang.cat_iff.mp hv2 with ⟨dom, tld, rfl, hdom, htld⟩
    rcases plus_cls_iff.mp hloc with ⟨hlocne, hlocall⟩
    rcases domainPlus_iff.mp hdom with ⟨labs, hlabsne, rfl, hlabs⟩
    rcases twoToFour_iff.mp htld with ⟨h2, h4, htldall⟩
    exact ⟨loc, labs, tld, by simp, hlocne, hlocall, hlabsne, hlabs, h2, h4, htldall⟩
  · rintro ⟨loc, labs, tld, rfl, hlocne, hlocall, hlabsne, hlabs, h2, h4, htldall⟩
    have hshape :
        loc ++ '@' :: ((labs.map (· ++ ['.'])).flatten ++ tld) =
          loc ++ (['@'] ++ ((labs.map (· ++ ['.'])).flatten ++ tld)) := by simp
    rw [hshape]
    exact RLang.cat (plus_cls_iff.mpr ⟨hlocne, hlocall⟩)
      (RLang.cat (.cls (by simp))
        (RLang.cat (domainPlus_iff.mpr ⟨labs, hlabsne, rfl, hlabs⟩)
          (twoToFour_iff.mpr ⟨h2, h4, htldall⟩)))

/-- A dot-free suffix following a dot is unique: if one list is decomposed in
two ways as prefix, dot, dot-free suffix, the suffixes agree. -/
theorem dotfree_suffix_unique :
    ∀ {a b c d : List Char}, a ++ '.' :: b = c ++ '.' :: d →
      '.' ∉ b → '.' ∉ d → b = d := by
  intro a
  induction a with
  | nil =>
      intro b c d h hb hd
      match c, h with
      | [], h => injection h
      | x :: c, h =>
          rw [List.cons_append] at h
          injection h with h1 h2
          exact absurd (h2 ▸ List.mem_append_right c (List.mem_cons_self '.' d)) hb
  | cons x a ih =>
      intro b c d h hb hd
      match c, h with
      | [], h =>
          rw [List.cons_append] at h
          injection h with h1 h2
          exact absurd (h2.symm ▸ List.mem_append_right a (List.mem_cons_self '.' b)) hd
      | y :: c, h =>
          rw [List.cons_append, List.cons_append] at h
          injection h with h1 h2
          exact ih h2 hb hd

/-- The label character class excludes the dot. -/
theorem labelChar_no_dot {tld : List Char}
    (h : ∀ c ∈ tld, labelChar c = true) : '.' ∉ tld := by
  intro hmem
  have := h '.' hmem
  simp [labelChar, wordChar] at this

/-- A nonempty list of dot-terminated labels followed by a tail exposes the
tail as the segment after the last dot. -/
theorem flatten_last_dot :
    ∀ (labs : List (List Char)) (lab tld : List Char),
      ∃ a : List Char,
        (((lab :: labs).map (· ++ ['.'])).flatten ++ tld) = a ++ '.' :: tld := by
  intro labs
  induction labs with
  | nil => exact fun lab tld => ⟨lab, by simp⟩
  | cons lab2 labs ih =>
      intro lab tld
      rcases ih lab2 tld with ⟨a, ha⟩
      refine ⟨lab ++ '.' :: a, ?_⟩
      have hstep : (((lab :: lab2 :: labs).map (· ++ ['.'])).flatten ++ tld) =
          (lab ++ ['.']) ++ (((lab2 :: labs).map (· ++ ['.'])).flatten ++ tld) := by
        simp
      rw [hstep, ha]
      simp

/-- A string of spec-email shape exposes its final segment after the last
dot. -/
theorem specShape_last_dot (loc tld : List Char) {labs : List (List Char)}
    (hne : labs ≠ []) :
    ∃ a : List Char,
      loc ++ '@' :: ((labs.map (· ++ ['.'])).flatten ++ tld) = a ++ '.' :: tld := by
  match labs, hne with
  | lab :: labs, _ =>
      rcases flatten_last_dot labs lab tld with ⟨a, ha⟩
      refine ⟨loc ++ '@' :: a, ?_⟩
      rw [ha]
      simp

/-! ## Shape facts about the digest -/

/-- Hex rendering doubles the byte count. -/
theorem bytesHex_data_length (bs : List Nat) :
    (bytesHex bs).data.length = 2 * bs.length := by
  induction bs with
  | nil => rfl
  | cons b bs ih =>
      simp only [bytesHex, List.map_cons, List.flatten_cons, byteHex,
        List.length_append, List.length_cons, List.length_nil] at *
      omega

/-- Uppercase hex rendering doubles the byte count. -/
theorem bytesHexUpper_data_length (bs : List Nat) :
    (bytesHexUpper bs).data.length = 2 * bs.length := by
  induction bs with
  | nil => rfl
  | cons b bs ih =>
      simp only [bytesHexUpper, List.map_cons, List.flatten_cons, byteHexUpper,
        List.length_append, List.length_cons, List.length_nil] at *
      omega

/-- A SHA-256 digest is 32 bytes, whatever the message. -/
theorem sha256Bytes_length (msg : List Nat) : (sha256Bytes msg).length = 32 := by
  simp [sha256Bytes, wordBytes]

/-- An HMAC-SHA256 digest is 32 bytes. -/
theorem hmacSha256_length (key msg : List Nat) :
    (hmacSha256 key msg).length = 32 := by
  simp [hmacSha256, sha256Bytes_length]

/-- The hex HMAC digest is never the empty string (it has 64 characters), so
it always passes the handler's truthiness test. -/
theorem hmacSha256Hex_ne_empty (key msg : String) :
    hmacSha256Hex key msg ≠ "" := by
  intro h
  have hlen := congrArg (fun t => t.data.length) h
  simp only [hmacSha256Hex] at hlen
  rw [bytesHex_data_length, hmacSha256_length] at hlen
  simp at hlen

/-- The uppercase hex rendering of an HMAC digest is never empty either. -/
theorem bytesHexUpper_hmac_ne_empty (key msg : List Nat) :
    bytesHexUpper (hmacSha256 key msg) ≠ "" := by
  intro h
  have hlen := congrArg (fun t => t.data.length) h
  simp only [bytesHexUpper_data_length, hmacSha256_length] at hlen
  simp at hlen

/-- Truthiness of a string value is nonemptiness. -/
theorem jsTruthy_jstr_iff {s : String} : jsTruthy (.jstr s) = true ↔ s ≠ "" := by
  simp [jsTruthy]

/-! ## Validation of the crypto model against published test vectors -/

set_option maxRecDepth 10000 in
/-- FIPS 180-4 test vector: SHA-256 of the empty message. -/
theorem sha256_empty_vector :
    bytesHex (sha256Bytes []) =
      "e3b0c44298fc1c149afbf4c8996fb92427ae41e4649b934ca495991b7852b855" := by
  decide

set_option maxRecDepth 10000 in
/-- FIPS 180-4 test vector: SHA-256 of `"abc"`. -/
theorem sha256_abc_vector :
    bytesHex (sha256Bytes (strBytes "abc")) =
      "ba7816bf8f01cfea414140de5dae2223b00361a396177a9cb410ff61f20015ad" := by
  decide

set_option maxRecDepth 10000 in
/-- Published HMAC-SHA256 test vector (key `"key"`, quick-brown-fox
message). -/
theorem hmac_fox_vector :
    hmacSha256Hex "key" "The quick brown fox jumps over the lazy dog" =
      "f7bc83f430538424b13298e6aa6fb143ef4d59a14946175997479dbc2d1a3cd8" := by
  decide

/-! ## Fixture environment for concrete witnesses -/

/-- A fixture environment with both credentials configured. -/
def envA : Env := ⟨some "rzp_test_key", some "s3cr3t"⟩

/-! ## Claims about the verify-payment handler -/

/-- Claim C1, counterexample.  The claim quantifies over every signature
string different from the digest, but the empty string is such a signature
and the handler answers it with the missing-fields error, not
`invalid_signature`: the presence check fires before the comparison. -/
theorem emptySignatureNotInvalidSignature :
    ("" ≠ hmacSha256Hex "s3cr3t" ("order_abc" ++ "|" ++ "pay_xyz")) ∧
    verifyPayment envA (.jstr "order_abc") (.jstr "pay_xyz") (.jstr "") =
      .missingFields ∧
    (VerifyOutcome.missingFields ≠ VerifyOutcome.success) ∧
    (VerifyOutcome.missingFields ≠ VerifyOutcome.invalidSignature) :=
  ⟨Ne.symm (hmacSha256Hex_ne_empty _ _), rfl, by decide, by decide⟩

/-- Claim C1 (amended): for nonempty `order_id`, `payment_id` and a
configured nonempty secret, submitting exactly the lowercase hex
HMAC-SHA256 digest of `order_id + "|" + payment_id` succeeds, and any
nonempty signature different from that digest is rejected as
`invalid_signature` (empty inputs instead hit the missing-fields check, and
an empty secret the configuration check). -/
theorem verify_digest_decides (kid : Option String) (secret o p sig : String)
    (hsec : secret ≠ "") (ho : o ≠ "") (hp : p ≠ "") :
    verifyPayment ⟨kid, some secret⟩ (.jstr o) (.jstr p)
        (.jstr (hmacSha256Hex secret (o ++ "|" ++ p))) = .success ∧
    (sig ≠ "" → sig ≠ hmacSha256Hex secret (o ++ "|" ++ p) →
      verifyPayment ⟨kid, some secret⟩ (.jstr o) (.jstr p) (.jstr sig) =
        .invalidSignature) := by
  have hob : (o == "") = false := beq_eq_false_iff_ne.mpr ho
  have hpb : (p == "") = false := beq_eq_false_iff_ne.mpr hp
  have hsb : (secret == "") = false := beq_eq_false_iff_ne.mpr hsec
  have hdb : (hmacSha256Hex secret (o ++ "|" ++ p) == "") = false :=
    beq_eq_false_iff_ne.mpr (hmacSha256Hex_ne_empty _ _)
  constructor
  · simp [verifyPayment, verifyPaymentRun, jsTruthy, envPresent, jsToString,
      hob, hpb, hsb, hdb]
  · intro hne hdiff
    have hsigb : (sig == "") = false := beq_eq_false_iff_ne.mpr hne
    have hcmp : (JVal.jstr (hmacSha256Hex secret (o ++ "|" ++ p)) ==
        JVal.jstr sig) = false := by
      simp only [beq_eq_false_iff_ne, ne_eq, JVal.jstr.injEq]
      exact fun h => hdiff h.symm
    simp [verifyPayment, verifyPaymentRun, jsTruthy, envPresent, jsToString,
      hob, hpb, hsb, hsigb, hcmp]

set_option maxRecDepth 10000 in
/-- Claim C1, witness at the spec's concrete scenario D. -/
theorem verify_digest_decides_witness :
    verifyPayment envA (.jstr "order_abc") (.jstr "pay_xyz")
        (.jstr (hmacSha256Hex "s3cr3t" ("order_abc" ++ "|" ++ "pay_xyz"))) =
      .success ∧
    verifyPayment envA (.jstr "order_abc") (.jstr "pay_xyz")
        (.jstr "deadbeef") = .invalidSignature := by
  have h := verify_digest_decides (some "rzp_test_key") "s3cr3t" "order_abc"
    "pay_xyz" "deadbeef" (by decide) (by decide) (by decide)
  exact ⟨h.1, h.2 (by decide) (by decide)⟩

/-- Claim C5: a request missing (or supplying an empty/falsy value for) any
of the three verification fields is answered with the missing-fields error,
distinct from `invalid_signature`, and no HMAC is computed on that path. -/
theorem verify_missing_fields (env : Env) (o p s : JVal)
    (h : jsTruthy o = false ∨ jsTruthy p = false ∨ jsTruthy s = false) :
    verifyPaymentRun env o p s = (.missingFields, 0) ∧
    (VerifyOutcome.missingFields ≠ VerifyOutcome.invalidSignature) ∧
    verifyStatus .missingFields = 400 := by
  refine ⟨?_, by decide, rfl⟩
  rcases h with h | h | h <;> simp [verifyPaymentRun, h]

/-- Claim C5, witness: the absent-signature request. -/
theorem verify_missing_fields_witness :
    verifyPaymentRun envA (.jstr "order_abc") (.jstr "pay_xyz") .undef =
      (.missingFields, 0) :=
  (verify_missing_fields envA (.jstr "order_abc") (.jstr "pay_xyz") .undef
    (Or.inr (Or.inr rfl))).1

/-- Claim C8: the verifier is deterministic and idempotent.  The embedding is
a pure function of the request fields and the read-only environment — the
handler touches no other state — so a repeated call is literal re-evaluation
and returns the same outcome; moreover the outcome does not depend on the
unused credential `keyId`. -/
theorem verify_deterministic_idempotent (env : Env) (o p s : JVal)
    (kid1 kid2 ks : Option String) :
    (verifyPaymentRun env o p s = verifyPaymentRun env o p s) ∧
    verifyPayment ⟨kid1, ks⟩ o p s = verifyPayment ⟨kid2, ks⟩ o p s :=
  ⟨rfl, rfl⟩

set_option maxRecDepth 10000 in
/-- Claim C10, counterexample.  The claim quantifies over every
`(order_id, payment_id)` pair, but with an empty `order_id` the handler
answers the uppercase digest with the missing-fields error rather than
`invalid_signature`. -/
theorem uppercaseDigestEmptyOrderIdNotInvalid :
    (bytesHexUpper (hmacSha256 (strBytes "s3cr3t") (strBytes ("" ++ "|" ++ "pay_xyz"))) ≠
      hmacSha256Hex "s3cr3t" ("" ++ "|" ++ "pay_xyz")) ∧
    verifyPayment envA (.jstr "") (.jstr "pay_xyz")
        (.jstr (bytesHexUpper (hmacSha256 (strBytes "s3cr3t")
          (strBytes ("" ++ "|" ++ "pay_xyz"))))) = .missingFields ∧
    (VerifyOutcome.missingFields ≠ VerifyOutcome.invalidSignature) :=
  ⟨by decide, rfl, by decide⟩

/-- Claim C10 (amended): for nonempty `order_id`, `payment_id` and a
configured nonempty secret, submitting the uppercase hex rendering of the
correct digest — whenever it differs from the lowercase rendering, i.e. the
digest contains a letter — is rejected as `invalid_signature`, because the
comparison is exact case-sensitive string equality against the lowercase
rendering. -/
theorem verify_uppercase_digest_rejected (kid : Option String)
    (secret o p : String) (hsec : secret ≠ "") (ho : o ≠ "") (hp : p ≠ "")
    (hdiff : bytesHexUpper (hmacSha256 (strBytes secret) (strBytes (o ++ "|" ++ p))) ≠
      hmacSha256Hex secret (o ++ "|" ++ p)) :
    verifyPayment ⟨kid, some secret⟩ (.jstr o) (.jstr p)
        (.jstr (bytesHexUpper (hmacSha256 (strBytes secret)
          (strBytes (o ++ "|" ++ p))))) = .invalidSignature ∧
    (VerifyOutcome.invalidSignature ≠ VerifyOutcome.success) := by
  refine ⟨?_, by decide⟩
  have hob : (o == "") = false := beq_eq_false_iff_ne.mpr ho
  have hpb : (p == "") = false := beq_eq_false_iff_ne.mpr hp
  have hsb : (secret == "") = false := beq_eq_false_iff_ne.mpr hsec
  have hub : (bytesHexUpper (hmacSha256 (strBytes secret)
      (strBytes (o ++ "|" ++ p))) == "") = false :=
    beq_eq_false_iff_ne.mpr (bytesHexUpper_hmac_ne_empty _ _)
  have hcmp : (JVal.jstr (hmacSha256Hex secret (o ++ "|" ++ p)) ==
      JVal.jstr (bytesHexUpper (hmacSha256 (strBytes secret)
        (strBytes (o ++ "|" ++ p))))) = false := by
    simp only [beq_eq_false_iff_ne, ne_eq, JVal.jstr.injEq]
    exact fun h => hdiff h.symm
  simp [verifyPayment, verifyPaymentRun, jsTruthy, envPresent, jsToString,
    hob, hpb, hsb, hub, hcmp]

set_option maxRecDepth 10000 in
/-- Claim C10, witness at the spec's concrete scenario D inputs. -/
theorem verify_uppercase_digest_rejected_witness :
    verifyPayment envA (.jstr "order_abc") (.jstr "pay_xyz")
        (.jstr (bytesHexUpper (hmacSha256 (strBytes "s3cr3t")
          (strBytes ("order_abc" ++ "|" ++ "pay_xyz"))))) = .invalidSignature :=
  (verify_uppercase_digest_rejected (some "rzp_test_key") "s3cr3t" "order_abc"
    "pay_xyz" (by decide) (by decide) (by decide) (by decide)).1

/-! ## Claims about the create-order handler -/

/-- The spec's concrete scenario A request: a fully valid order. -/
def reqA : OrderReq :=
  ⟨.jnum 500, .jstr "INR", .jstr "u1", .jstr "Jane", .undef, .undef⟩

/-- The spec's concrete scenario B request: amount below the minimum. -/
def reqB : OrderReq :=
  ⟨.jnum 50, .jstr "INR", .jstr "u1", .jstr "Jane", .undef, .undef⟩

/-- Claim C2: a request violating any of the five validation rules is
rejected with a client validation error (HTTP 400) and the processor's
order-creation capability is never invoked. -/
theorem invalid_request_never_reaches_processor (env : Env) (now : Nat)
    (req : OrderReq) (h : rulesHold req = false) :
    processorCalls (createOrder env now req) = 0 ∧
    orderStatus (createOrder env now req) = 400 := by
  cases hg1 : presenceFails req with
  | true => simp [createOrder, hg1, processorCalls, orderStatus]
  | false =>
  cases hg2 : amountFails req with
  | true => simp [createOrder, hg1, hg2, processorCalls, orderStatus]
  | false =>
  cases hg3 : currencyFails req with
  | true => simp [createOrder, hg1, hg2, hg3, processorCalls, orderStatus]
  | false =>
  cases hg4 : contactFails req with
  | true => simp [createOrder, hg1, hg2, hg3, hg4, processorCalls, orderStatus]
  | false =>
  cases hg5 : emailFails req with
  | true => simp [createOrder, hg1, hg2, hg3, hg4, hg5, processorCalls, orderStatus]
  | false => simp [rulesHold, hg1, hg2, hg3, hg4, hg5] at h

/-- Claim C2, witness at the spec's scenario B (amount below minimum). -/
theorem invalid_request_never_reaches_processor_witness :
    processorCalls (createOrder envA 1700000000000 reqB) = 0 ∧
    orderStatus (createOrder envA 1700000000000 reqB) = 400 :=
  invalid_request_never_reaches_processor envA 1700000000000 reqB (by decide)

/-- Claim C4: the validation checks fire in the fixed source order —
presence, then amount, then currency, then contact, then email, then the
two processor credentials — the first failing check determines the outcome,
and the credential failure is a 500 server configuration error, distinct
from the 400 client validation errors. -/
theorem validation_order_and_classification (env : Env) (now : Nat)
    (req : OrderReq) :
    (presenceFails req = true → createOrder env now req = .missingFields) ∧
    (presenceFails req = false → amountFails req = true →
      createOrder env now req = .badAmount) ∧
    (presenceFails req = false → amountFails req = false →
      currencyFails req = true → createOrder env now req = .badCurrency) ∧
    (presenceFails req = false → amountFails req = false →
      currencyFails req = false → contactFails req = true →
      createOrder env now req = .badContact) ∧
    (presenceFails req = false → amountFails req = false →
      currencyFails req = false → contactFails req = false →
      emailFails req = true → createOrder env now req = .badEmail) ∧
    (rulesHold req = true → credsFail env = true →
      createOrder env now req = .missingCredentials) ∧
    (orderStatus .missingFields = 400 ∧ orderStatus .badAmount = 400 ∧
      orderStatus .badCurrency = 400 ∧ orderStatus .badContact = 400 ∧
      orderStatus .badEmail = 400 ∧ orderStatus .missingCredentials = 500) := by
  refine ⟨?_, ?_, ?_, ?_, ?_, ?_, rfl, rfl, rfl, rfl, rfl, rfl⟩
  · intro h1; simp [createOrder, h1]
  · intro h1 h2; simp [createOrder, h1, h2]
  · intro h1 h2 h3; simp [createOrder, h1, h2, h3]
  · intro h1 h2 h3 h4; simp [createOrder, h1, h2, h3, h4]
  · intro h1 h2 h3 h4 h5; simp [createOrder, h1, h2, h3, h4, h5]
  · intro hr hc
    simp only [rulesHold, Bool.not_eq_true', Bool.or_eq_false_iff] at hr
    simp [createOrder, hr.1.1.1.1, hr.1.1.1.2, hr.1.1.2, hr.1.2, hr.2, hc]

/-- Claim C4, witness: with amount and currency both invalid the amount
error wins (ordering), and with all validations passing but credentials
absent the outcome is the 500 configuration error. -/
theorem validation_order_and_classification_witness :
    createOrder envA 1700000000000
        ⟨.jnum 50, .jstr "USD", .jstr "u1", .jstr "Jane", .undef, .undef⟩ =
      .badAmount ∧
    createOrder ⟨none, none⟩ 1700000000000 reqA = .missingCredentials :=
  ⟨(validation_order_and_classification envA 1700000000000 _).2.1
      (by decide) (by decide),
    (validation_order_and_classification ⟨none, none⟩ 1700000000000
      reqA).2.2.2.2.2.1 (by decide) (by decide)⟩

/-- Claim C6: every order that reaches the processor carries a receipt equal
to `rcpt_` + the userId truncated to 20 characters + `_` + the creation
timestamp, the whole truncated to 40 characters; hence its length is at most
40 and it starts with `rcpt_`. -/
theorem receipt_shape (env : Env) (now : Nat) (req : OrderReq)
    (opts : OrderOptions) (h : createOrder env now req = .processorCall opts) :
    ∃ u : String, req.userId = .jstr u ∧
      opts.receipt = jsSlice 40 ("rcpt_" ++ jsSlice 20 u ++ "_" ++ toString now) ∧
      opts.receipt.data.length ≤ 40 ∧
      opts.receipt.data.take 5 = "rcpt_".data := by
  unfold createOrder at h
  split at h
  · exact (OrderOutcome.noConfusion h)
  split at h
  · exact (OrderOutcome.noConfusion h)
  split at h
  · exact (OrderOutcome.noConfusion h)
  split at h
  · exact (OrderOutcome.noConfusion h)
  split at h
  · exact (OrderOutcome.noConfusion h)
  split at h
  · exact (OrderOutcome.noConfusion h)
  split at h
  case _ u heq =>
    injection h with h
    subst h
    refine ⟨u, heq, rfl, ?_, ?_⟩
    · simp [jsSlice, List.length_take]
    · show ((("rcpt_" ++ (jsSlice 20 u ++ "_" ++ toString now)).data).take 40).take 5 =
        "rcpt_".data
      rw [List.take_take]
      have hmin : min 5 40 = 5 := by decide
      rw [hmin, String.data_append]
      exact List.take_left' rfl
  case _ =>
    exact (OrderOutcome.noConfusion h)

/-- The options object the fixture request produces. -/
def optsA : OrderOptions :=
  ⟨.jnum 500, .jstr "INR", "rcpt_u1_1700000000000", 1,
    ⟨.jstr "u1", .jstr "Jane", .jstr "", .jstr ""⟩⟩

/-- Claim C6, witness at the spec's scenario A. -/
theorem receipt_shape_witness :
    ∃ u : String, reqA.userId = .jstr u ∧
      optsA.receipt = jsSlice 40 ("rcpt_" ++ jsSlice 20 u ++ "_" ++
        toString 1700000000000) ∧
      optsA.receipt.data.length ≤ 40 ∧
      optsA.receipt.data.take 5 = "rcpt_".data :=
  receipt_shape envA 1700000000000 reqA optsA (by decide)

/-- Claim C9: a falsy amount — `0`, `null` or the empty string — is caught
by the truthiness presence check, so the handler answers with the 400
missing-required-fields error, not the amount-constraint error. -/
theorem falsy_amount_missing_fields (env : Env) (now : Nat) (req : OrderReq)
    (h : req.amount = .jnum 0 ∨ req.amount = .jnull ∨ req.amount = .jstr "") :
    createOrder env now req = .missingFields ∧
    orderStatus .missingFields = 400 ∧
    (OrderOutcome.missingFields ≠ OrderOutcome.badAmount) := by
  have hfalsy : jsTruthy req.amount = false := by
    rcases h with h | h | h <;> simp [h, jsTruthy]
  have hg : presenceFails req = true := by simp [presenceFails, hfalsy]
  exact ⟨by simp [createOrder, hg], rfl, by decide⟩

/-- Claim C9, witness: amount zero. -/
theorem falsy_amount_missing_fields_witness :
    createOrder envA 1700000000000
        ⟨.jnum 0, .jstr "INR", .jstr "u1", .jstr "Jane", .undef, .undef⟩ =
      .missingFields :=
  (falsy_amount_missing_fields envA 1700000000000
    ⟨.jnum 0, .jstr "INR", .jstr "u1", .jstr "Jane", .undef, .undef⟩
    (Or.inl rfl)).1

/-! ## Claim about the email validation rule -/

/-- Claim C7: an email passes the source's check exactly when it has the
shape local-part `@` domain, with a nonempty local part of word characters,
dots and hyphens, at least one dot-separated nonempty domain label of word
characters and hyphens, and a final segment of two to four such characters
after the last dot; in particular any email whose final label is longer
than four characters is rejected. -/
theorem email_check_characterisation :
    (∀ s : String, emailTest s = true ↔ specEmailShape s.data) ∧
    (∀ (loc tld : List Char) (labs : List (List Char)),
      labs ≠ [] → (∀ c ∈ tld, labelChar c = true) → 4 < tld.length →
      emailTest ⟨loc ++ '@' :: ((labs.map (· ++ ['.'])).flatten ++ tld)⟩ =
        false) := by
  have hiff : ∀ s : String, emailTest s = true ↔ specEmailShape s.data :=
    fun s => rmatch_iff.trans emailRE_lang_iff
  refine ⟨hiff, ?_⟩
  intro loc tld labs hne htld hlen
  by_contra hcon
  rw [Bool.not_eq_false] at hcon
  have hsh := (hiff _).mp hcon
  rcases hsh with ⟨loc', labs', tld', heq, _, _, hne', _, _, h4', htld'⟩
  rcases specShape_last_dot loc tld hne with ⟨a, ha⟩
  rcases specShape_last_dot loc' tld' hne' with ⟨a', ha'⟩
  have hsame : a ++ '.' :: tld = a' ++ '.' :: tld' := by
    rw [← ha, ← ha']
    exact heq
  have htldeq : tld = tld' :=
    dotfree_suffix_unique hsame (labelChar_no_dot htld) (labelChar_no_dot htld')
  rw [htldeq] at hlen
  omega

/-- Claim C7, witness: `a@b.co` passes and exposes its shape; `a@b.cdefg`,
whose final label has five characters, is rejected. -/
theorem email_check_characterisation_witness :
    emailTest "a@b.co" = true ∧ emailTest "a@b.cdefg" = false := by
  constructor
  · exact (email_check_characterisation.1 "a@b.co").mpr
      ⟨['a'], [['b']], ['c', 'o'], by decide, by decide, by decide, by decide,
        by decide, by decide, by decide, by decide⟩
  · have h := email_check_characterisation.2 ['a'] ['c', 'd', 'e', 'f', 'g']
      [['b']] (by decide) (by decide) (by decide)
    have hs : ("a@b.cdefg" : String) =
        ⟨['a'] ++ '@' :: (([['b']].map (· ++ ['.'])).flatten ++
          ['c', 'd', 'e', 'f', 'g'])⟩ := by decide
    rw [hs]
    exact h
